import Mathlib

/-!
Verification of the project-tree scanner in scanner.py
(class PythonProjectScanner and its helpers).

The Python source is shallowly embedded: the parts of the CPython ast
module that the scanner inspects are modelled as inductive types, file
contents are modelled by their observable read/parse outcome, and the
filesystem is modelled as a tree whose directory nodes carry the outcome
of listing them.  Every scanner method is translated to a total Lean
function that mirrors the Python control flow; Python exceptions become
explicit error values, exactly as the scanner itself converts them.
-/

namespace Scanner

/-! ## Model of the CPython abstract syntax tree

Only the node shapes the scanner inspects are modelled.  An arbitrary
expression is represented by the text that ast.unparse would render for
it; names, string constants and integer constants are kept structured
because the scanner branches on ast.Name and docstring extraction looks
at leading string constants. -/

inductive Expr where
  | name (id : String)
  | constStr (s : String)
  | constInt (n : Int)
  | otherExpr (rendering : String)
deriving Repr, DecidableEq

/-- Model of ast.unparse restricted to the expression shapes above.
The try/except around every ast.unparse call in the scanner never fires
in this model because unparse is total here. -/
def unparse : Expr → String
  | .name id => id
  | .constStr s => "'" ++ s ++ "'"
  | .constInt n => toString n
  | .otherExpr rendering => rendering

/-- Model of one entry of ast.arguments.args / posonlyargs / kwonlyargs,
and of ast.arguments.vararg / kwarg: a parameter name with an optional
annotation expression. -/
structure Arg where
  arg : String
  annotation : Option Expr
deriving Repr, DecidableEq

/-- Model of ast.arguments.  The scanner reads only the fields args,
vararg and kwarg; posonlyargs and kwonlyargs are carried so that their
being ignored is a provable fact rather than a modelling artifact. -/
structure Arguments where
  posonlyargs : List Arg
  args : List Arg
  vararg : Option Arg
  kwonlyargs : List Arg
  kwarg : Option Arg
deriving Repr, DecidableEq

/-- Model of ast.alias (one name in an import statement). -/
structure AliasInfo where
  name : String
  asname : Option String
deriving Repr, DecidableEq

/-- Model of a Python statement, restricted to the shapes the scanner
distinguishes.  FunctionDef and AsyncFunctionDef are merged into one
constructor with an is_async flag (the scanner only ever tests
isinstance against the pair and against AsyncFunctionDef alone).
Compound statements the scanner does not branch on (if, while, for,
with, try, ...) are collapsed into the constructor other, which keeps
their nested statement bodies so that ast.walk still sees them. -/
inductive Stmt where
  | functionDef (nm : String) (args : Arguments) (body : List Stmt)
      (decorator_list : List Expr) (returns : Option Expr)
      (lineno : Nat) (is_async : Bool)
  | classDef (nm : String) (bases : List Expr) (body : List Stmt) (lineno : Nat)
  | assign (targets : List Expr) (value : Expr) (lineno : Nat)
  | importStmt (names : List AliasInfo)
  | importFrom (module : Option String) (names : List AliasInfo)
  | exprStmt (value : Expr)
  | other (body : List Stmt)
deriving Repr

/-- Model of ast.Module: the top-level statement list of a file. -/
structure Module where
  body : List Stmt
deriving Repr

/-- The statement children of a statement, as ast.iter_child_nodes sees
them.  Expression children are omitted: no statement can occur inside an
expression in the modelled fragment, so walking only the statement part
of the tree visits exactly the same Assign / Import / ImportFrom nodes
as the real ast.walk. -/
def Stmt.astChildren : Stmt → List Stmt
  | .functionDef _ _ body _ _ _ _ => body
  | .classDef _ _ body _ => body
  | .other body => body
  | _ => []

mutual

/-- Size of a statement, used as the termination measure of the
breadth-first walk. -/
def stmtSize : Stmt → Nat
  | .functionDef _ _ body _ _ _ _ => 1 + stmtsSize body
  | .classDef _ _ body _ => 1 + stmtsSize body
  | .other body => 1 + stmtsSize body
  | .assign _ _ _ => 1
  | .importStmt _ => 1
  | .importFrom _ _ => 1
  | .exprStmt _ => 1

/-- Total size of a list of statements. -/
def stmtsSize : List Stmt → Nat
  | [] => 0
  | s :: rest => stmtSize s + stmtsSize rest

end

theorem stmtsSize_append (l r : List Stmt) :
    stmtsSize (l ++ r) = stmtsSize l + stmtsSize r := by
  induction l with
  | nil => simp [stmtsSize]
  | cons s rest ih => simp [stmtsSize, ih]; omega

theorem stmtsSize_astChildren_lt (s : Stmt) :
    stmtsSize s.astChildren < stmtSize s := by
  cases s <;> simp [Stmt.astChildren, stmtSize, stmtsSize]

/-- Model of ast.walk: breadth-first traversal of every (statement) node
reachable from the queue.  ast.walk yields the root Module node first;
the Module node is not an Assign / Import / ImportFrom, so starting from
the module body yields the same extraction results. -/
def walkQueue : List Stmt → List Stmt
  | [] => []
  | s :: rest => s :: walkQueue (rest ++ s.astChildren)
termination_by q => stmtsSize q
decreasing_by
  simp only [stmtsSize_append, stmtsSize]
  have := stmtsSize_astChildren_lt s
  omega

/-- u occurs somewhere inside the statement s (s itself included), at
any nesting depth.  This is the specification-side notion of "anywhere
in the syntax tree". -/
inductive Occurs : Stmt → Stmt → Prop where
  | refl (s : Stmt) : Occurs s s
  | child {s t u : Stmt} : t ∈ s.astChildren → Occurs u t → Occurs u s

/-- u occurs somewhere in the module m, at any nesting depth. -/
def ModuleContains (m : Module) (u : Stmt) : Prop :=
  ∃ t ∈ m.body, Occurs u t

/-! ## String helpers mirroring the Python string methods the scanner
uses.  They operate on the character list of the string; ASCII case
mapping stands in for the full Unicode tables of str.lower / str.isupper
(every name the scanner classifies in this repository is ASCII). -/

/-- Model of name.startswith with a one-character dot argument. -/
def startsWithDot (s : String) : Bool :=
  match s.data with
  | [] => false
  | c :: _ => c = '.'

/-- Model of str.lower. -/
def pyLower (s : String) : String :=
  ⟨s.data.map Char.toLower⟩

/-- Model of str.isupper: at least one cased character, and no cased
character is lower-case. -/
def pyIsUpper (s : String) : Bool :=
  s.data.any (fun c => c.isAlpha) && s.data.all (fun c => !c.isLower)

/-- Model of pathlib suffix: the substring of the name from its last
dot, provided that dot is neither the first nor the last character;
otherwise the empty string.  This mirrors the CPython implementation
(name.rfind with the bound 0 < i < len(name) - 1). -/
def lastDotIndex : List Char → Option Nat
  | [] => none
  | c :: rest =>
    match lastDotIndex rest with
    | some i => some (i + 1)
    | none => if c = '.' then some 0 else none

def pathSuffix (s : String) : String :=
  match lastDotIndex s.data with
  | some i => if 0 < i ∧ i < s.data.length - 1 then ⟨s.data.drop i⟩ else ""
  | none => ""

/-! ## Analysis records

These mirror the dictionaries the scanner methods return.  Optional
dictionary values (None in Python, or a key only present on one branch)
become Option fields. -/

/-- One entry of the args list built by analyze_function. -/
structure ParamInfo where
  name : String
  type : Option String
deriving Repr, DecidableEq

/-- The dictionary returned by analyze_function. -/
structure FunctionInfo where
  name : String
  line : Nat
  args : List ParamInfo
  return_type : Option String
  decorators : List String
  docstring : String
  is_async : Bool
deriving Repr, DecidableEq

/-- One entry of the attributes list built by analyze_class. -/
structure AttrInfo where
  name : String
  value : String
  line : Nat
deriving Repr, DecidableEq

/-- The dictionary returned by analyze_class. -/
structure ClassInfo where
  name : String
  line : Nat
  methods : List FunctionInfo
  attributes : List AttrInfo
  bases : List String
  docstring : String
deriving Repr, DecidableEq

/-- One entry of the list returned by analyze_constants. -/
structure ConstantInfo where
  name : String
  value : String
  line : Nat
deriving Repr, DecidableEq

/-- One entry of the list returned by analyze_imports. -/
structure ImportInfo where
  module : String
  «alias» : Option String
  type : String
deriving Repr, DecidableEq

/-- The dictionary returned by scan_python_file.  The success branch of
the Python code builds a dictionary without an error key; the except
branch adds one.  Both shapes are represented by this record, with
error = none on success. -/
structure FileAnalysis where
  file_path : String
  functions : List FunctionInfo
  classes : List ClassInfo
  constants : List ConstantInfo
  imports : List ImportInfo
  total_functions : Nat
  total_classes : Nat
  total_constants : Nat
  lines : Nat
  error : Option String
deriving Repr

/-! ## The analysis functions of PythonProjectScanner -/

/-- Model of ast.get_docstring: the value of a leading string-constant
expression statement, if any.  (The inspect.cleandoc normalisation that
CPython applies to the raw string is elided; no claim depends on it.) -/
def get_docstring : List Stmt → Option String
  | .exprStmt (.constStr s) :: _ => some s
  | _ => none

/-- PythonProjectScanner.analyze_function, lines 62-102 of scanner.py.
The node fields are passed individually because Stmt is an inductive
type.  Only args.args, args.vararg and args.kwarg contribute parameter
entries, exactly as in the source. -/
def analyze_function (nm : String) (args : Arguments) (body : List Stmt)
    (decorator_list : List Expr) (returns : Option Expr)
    (lineno : Nat) (is_async : Bool) : FunctionInfo :=
  { name := nm
    line := lineno
    args :=
      args.args.map (fun a => { name := a.arg, type := a.annotation.map unparse })
      ++ (match args.vararg with
          | some v => [{ name := "*" ++ v.arg, type := some "varargs" }]
          | none => [])
      ++ (match args.kwarg with
          | some k => [{ name := "**" ++ k.arg, type := some "kwargs" }]
          | none => [])
    return_type := returns.map unparse
    decorators := decorator_list.map unparse
    docstring := (get_docstring body).getD "No documentation"
    is_async := is_async }

/-- PythonProjectScanner.analyze_class, lines 104-135 of scanner.py.
The single Python loop over the class body fills the methods and
attributes lists independently, so it is rendered as one filterMap per
list. -/
def analyze_class (nm : String) (bases : List Expr) (body : List Stmt)
    (lineno : Nat) : ClassInfo :=
  { name := nm
    line := lineno
    methods := body.filterMap (fun child =>
      match child with
      | .functionDef n a b d r l asy => some (analyze_function n a b d r l asy)
      | _ => none)
    attributes := body.flatMap (fun child =>
      match child with
      | .assign targets value l =>
        targets.filterMap (fun t =>
          match t with
          | .name id => some { name := id, value := unparse value, line := l }
          | _ => none)
      | _ => [])
    bases := bases.map unparse
    docstring := (get_docstring body).getD "No documentation" }

/-- The Constant entries contributed by one walked node (the body of the
loop in analyze_constants). -/
def constants_of_stmt : Stmt → List ConstantInfo
  | .assign targets value lineno =>
    targets.filterMap (fun t =>
      match t with
      | .name id =>
        if pyIsUpper id then some { name := id, value := unparse value, line := lineno }
        else none
      | _ => none)
  | _ => []

/-- PythonProjectScanner.analyze_constants, lines 137-152 of scanner.py:
ast.walk over the whole tree, collecting upper-case-named assignment
targets. -/
def analyze_constants (tree : Module) : List ConstantInfo :=
  (walkQueue tree.body).flatMap constants_of_stmt

/-- The Import entries contributed by one walked node (the body of the
loop in analyze_imports).  node.module or '' followed by a truthiness
test on the resulting string mirrors lines 165-168. -/
def imports_of_stmt : Stmt → List ImportInfo
  | .importStmt names =>
    names.map (fun a => { module := a.name, «alias» := a.asname, type := "import" })
  | .importFrom module names =>
    names.map (fun a =>
      let m := module.getD ""
      { module := if m ≠ "" then m ++ "." ++ a.name else a.name
        «alias» := a.asname
        type := "from_import" })
  | _ => []

/-- PythonProjectScanner.analyze_imports, lines 154-172 of scanner.py. -/
def analyze_imports (tree : Module) : List ImportInfo :=
  (walkQueue tree.body).flatMap imports_of_stmt

/-- The loop over tree.body in scan_python_file (lines 181-185): one
pass that appends top-level function definitions to the first list and
top-level class definitions to the second. -/
def scan_body : List Stmt → List FunctionInfo × List ClassInfo
  | [] => ([], [])
  | s :: rest =>
    let acc := scan_body rest
    match s with
    | .functionDef n a b d r l asy => (analyze_function n a b d r l asy :: acc.1, acc.2)
    | .classDef n bs b l => (acc.1, analyze_class n bs b l :: acc.2)
    | _ => acc

/-- The observable behaviour of one file on disk, as seen through
open().read() followed by ast.parse: reading can raise (readError),
parsing can raise (parseError), or parsing succeeds with a syntax tree,
in which case the splitlines count of the content is also recorded.
The message strings are the str(e) renderings of the raised
exceptions. -/
inductive FileData where
  | readError (msg : String)
  | parseError (msg : String)
  | parsed (lines : Nat) (tree : Module)
deriving Repr

/-- The exception raised while reading or parsing the file, if any. -/
def FileData.failure : FileData → Option String
  | .readError msg => some msg
  | .parseError msg => some msg
  | .parsed _ _ => none

/-- PythonProjectScanner.scan_python_file, lines 174-211 of scanner.py.
The try/except of the source becomes a match on the read/parse outcome:
the except branch (lines 199-211) returns the record with the error
field set and every collection empty. -/
def scan_python_file (path : String) (fd : FileData) : FileAnalysis :=
  match fd with
  | .readError msg =>
    { file_path := path, functions := [], classes := [], constants := []
      imports := [], total_functions := 0, total_classes := 0
      total_constants := 0, lines := 0, error := some msg }
  | .parseError msg =>
    { file_path := path, functions := [], classes := [], constants := []
      imports := [], total_functions := 0, total_classes := 0
      total_constants := 0, lines := 0, error := some msg }
  | .parsed lines tree =>
    let fcs := scan_body tree.body
    { file_path := path
      functions := fcs.1
      classes := fcs.2
      constants := analyze_constants tree
      imports := analyze_imports tree
      total_functions := fcs.1.length
      total_classes := fcs.2.length
      total_constants := (analyze_constants tree).length
      lines := lines
      error := none }

/-! ## Filesystem model and directory traversal

A filesystem entry is a file (with the observable read/parse behaviour
of its content) or a directory.  Listing a directory with iterdir can
raise before yielding anything (sorted() consumes the iterator up
front), so a directory node carries either its entries, or the
permission failure, or another OS failure with its str(e) rendering.
scan_python_file and the recursive traversal themselves never raise, so
these are the only failure points of process_directory, matching the
try/except at lines 228-243 of scanner.py. -/

inductive FsNode where
  | file (nm : String) (data : FileData)
  | dir (nm : String) (entries : List FsNode)
  | dirDenied (nm : String)
  | dirError (nm : String) (msg : String)

/-- The base name of the entry (Path.name). -/
def FsNode.name : FsNode → String
  | .file nm _ => nm
  | .dir nm _ => nm
  | .dirDenied nm => nm
  | .dirError nm _ => nm

/-- Path.is_file: true for regular files only. -/
def FsNode.isFile : FsNode → Bool
  | .file _ _ => true
  | _ => false

/-- Path.is_dir: true for every directory, readable or not. -/
def FsNode.isDir : FsNode → Bool
  | .file _ _ => false
  | _ => true

/-! ## The sort of line 229

sorted(dir_path.iterdir(), key=lambda x: (x.is_file(), x.name.lower()))
is a stable sort by the lexicographic order on the pair
(is_file, lower-cased name).  Python compares the pairs with the strict
tuple order, booleans as 0 < 1 and strings code point by code point.
The embedding uses a stable insertion sort driven by the same strict
comparison: a stable sort by a fixed key is unique, so this agrees with
Python's sorted elementwise. -/

/-- Strict order on booleans: False < True. -/
def boolLt : Bool → Bool → Bool
  | false, true => true
  | _, _ => false

/-- Strict lexicographic order on character lists, code point by code
point: the Python string order. -/
def charsLt : List Char → List Char → Bool
  | [], [] => false
  | [], _ :: _ => true
  | _ :: _, [] => false
  | a :: as, b :: bs => if a < b then true else if b < a then false else charsLt as bs

/-- The sort key of line 229: (x.is_file(), x.name.lower()). -/
def sortKey (e : FsNode) : Bool × List Char :=
  (e.isFile, (pyLower e.name).data)

/-- Strict lexicographic order on (Bool, string) pairs: the Python
tuple comparison used by the sort key. -/
def pairLt (p q : Bool) (s t : List Char) : Bool :=
  boolLt p q || (p == q && charsLt s t)

/-- Strict tuple order on sort keys. -/
def keyLt (a b : FsNode) : Bool :=
  pairLt (sortKey a).1 (sortKey b).1 (sortKey a).2 (sortKey b).2

/-- Insert a after every element strictly below it: the earlier element
stays in front of later elements with an equal key, which is exactly the
stability guarantee of Python's sorted. -/
def insertByLt (lt : FsNode → FsNode → Bool) (a : FsNode) : List FsNode → List FsNode
  | [] => [a]
  | b :: bs => if lt b a then b :: insertByLt lt a bs else a :: b :: bs

/-- Stable insertion sort with the strict comparison lt. -/
def sortByLt (lt : FsNode → FsNode → Bool) : List FsNode → List FsNode
  | [] => []
  | x :: xs => insertByLt lt x (sortByLt lt xs)

/-- The items list of line 229. -/
def pySorted (entries : List FsNode) : List FsNode :=
  sortByLt keyLt entries

/-! ## The result tree -/

/-- The nested dictionary built by process_directory: folder name to
subtree, file name to analysis, plus the optional in-band error string.
Python dictionaries preserve insertion order, so both mappings are
association lists in insertion order. -/
inductive DirNode where
  | mk (folders : List (String × DirNode))
       (files : List (String × FileAnalysis))
       (error : Option String)

def DirNode.folders : DirNode → List (String × DirNode)
  | .mk fs _ _ => fs

def DirNode.files : DirNode → List (String × FileAnalysis)
  | .mk _ fs _ => fs

def DirNode.error : DirNode → Option String
  | .mk _ _ e => e

/-- The skip set of should_skip_directory, lines 214-220 of scanner.py. -/
def skip_dirs : List String :=
  ["__pycache__", ".git", ".svn", ".hg",
   "node_modules", ".venv", "venv", "env",
   ".pytest_cache", ".mypy_cache", ".tox",
   "build", "dist", ".egg-info", "htmlcov",
   ".coverage", ".idea", ".vscode", ".DS_Store"]

/-- PythonProjectScanner.should_skip_directory, lines 213-221. -/
def should_skip_directory (nm : String) : Bool :=
  skip_dirs.contains nm || startsWithDot nm

/-- The guard of line 231: should_skip_directory for directories, a dot
check for everything else. -/
def shouldSkipEntry (e : FsNode) : Bool :=
  if e.isDir then should_skip_directory e.name else startsWithDot e.name

/-- The local function process_directory of build_directory_structure,
lines 224-244 of scanner.py.  The loop over the sorted items fills the
folders and files dictionaries independently, so it is rendered as one
filterMap per dictionary over the same sorted list, preserving order.
Recursion terminates because every recursive call increases
current_depth below the fixed max_depth. -/
def process_directory (dir_path : FsNode) (max_depth current_depth : Nat) : DirNode :=
  if _h : max_depth ≤ current_depth then
    .mk [] [] (some "Max depth reached")
  else
    match dir_path with
    | .dirDenied _ => .mk [] [] (some "Permission denied")
    | .dirError _ msg => .mk [] [] (some msg)
    | .file _ _ => .mk [] [] none
    | .dir _ entries =>
      let items := pySorted entries
      .mk
        (items.filterMap (fun item =>
          if item.isDir then
            if should_skip_directory item.name then none
            else some (item.name, process_directory item max_depth (current_depth + 1))
          else none))
        (items.filterMap (fun item =>
          match item with
          | .file fname data =>
            if startsWithDot fname then none
            else if pathSuffix fname == ".py" then some (fname, scan_python_file fname data)
            else none
          | _ => none))
        none
termination_by max_depth - current_depth
decreasing_by omega

/-- PythonProjectScanner.build_directory_structure, line 245: one call
at the project root, with the fixed defaults max_depth = 10 and
current_depth = 0. -/
def build_directory_structure (root : FsNode) : DirNode :=
  process_directory root 10 0

/-! ## Project root auto-detection

PythonProjectScanner.__init__, lines 41-59 of scanner.py, for the case
of no explicit path.  A directory on the cwd-to-root chain is modelled
by its path string and the base names of its entries; (d / ind).exists()
becomes membership of ind in those names. -/

structure DirectoryListing where
  path : String
  entryNames : List String

/-- The project_indicators list of lines 44-48. -/
def project_indicators : List String :=
  ["setup.py", "pyproject.toml", "requirements.txt",
   "Pipfile", "poetry.lock", "environment.yml",
   ".git", "src", "lib", "app", "apps"]

/-- any((d / indicator).exists() for indicator in project_indicators) -/
def hasProjectIndicator (d : DirectoryListing) : Bool :=
  project_indicators.any (fun ind => d.entryNames.contains ind)

/-- The for-else loop over current.parents, lines 52-57. -/
def searchParents (cwdPath : String) : List DirectoryListing → String
  | [] => cwdPath
  | p :: ps => if hasProjectIndicator p then p.path else searchParents cwdPath ps

/-- The project_path computation of __init__ when project_path is None:
check the current directory, then each ancestor in order, falling back
to the current directory. -/
def init_project_path (cwd : DirectoryListing) (parents : List DirectoryListing) : String :=
  if hasProjectIndicator cwd then cwd.path
  else searchParents cwd.path parents

/-! ## Specification-side predicates over the result tree -/

/-- No key of any folders mapping, at any depth of the tree, is a name
that should_skip_directory would skip. -/
inductive NoSkipped : DirNode → Prop where
  | mk {folders : List (String × DirNode)} {files : List (String × FileAnalysis)}
      {err : Option String}
      (hk : ∀ k sub, (k, sub) ∈ folders → should_skip_directory k = false)
      (hs : ∀ k sub, (k, sub) ∈ folders → NoSkipped sub) :
      NoSkipped (.mk folders files err)

/-- Every key of every files mapping, at any depth of the tree, carries
the recognized source extension. -/
inductive FilesOnlyPy : DirNode → Prop where
  | mk {folders : List (String × DirNode)} {files : List (String × FileAnalysis)}
      {err : Option String}
      (hf : ∀ k a, (k, a) ∈ files → pathSuffix k = ".py")
      (hd : ∀ k sub, (k, sub) ∈ folders → FilesOnlyPy sub) :
      FilesOnlyPy (.mk folders files err)

/-- The nesting height of the tree is at most n: a bound n + 1 allows
the node itself plus n further folder levels below it. -/
inductive HeightLE : DirNode → Nat → Prop where
  | mk {folders : List (String × DirNode)} {files : List (String × FileAnalysis)}
      {err : Option String} {n : Nat}
      (h : ∀ k sub, (k, sub) ∈ folders → HeightLE sub n) :
      HeightLE (.mk folders files err) (n + 1)

/-- A synthetic chain of n + 1 nested directories, used to exercise the
depth limit. -/
def deepChain : Nat → FsNode
  | 0 => .dir "d" []
  | n + 1 => .dir "d" [deepChain n]

/-! ## Helper lemmas -/

/-- Membership in the breadth-first walk is exactly occurrence at some
depth below one of the queue elements. -/
theorem mem_walkQueue {u : Stmt} {l : List Stmt} :
    u ∈ walkQueue l ↔ ∃ s ∈ l, Occurs u s := by
  generalize hn : stmtsSize l = n
  induction n using Nat.strong_induction_on generalizing l with
  | _ n ih =>
    cases l with
    | nil => simp [walkQueue]
    | cons s rest =>
      rw [walkQueue]
      have hlt : stmtsSize (rest ++ s.astChildren) < n := by
        have := stmtsSize_astChildren_lt s
        simp only [← hn, stmtsSize_append, stmtsSize]
        omega
      rw [List.mem_cons, ih _ hlt rfl]
      constructor
      · rintro (rfl | ⟨t, ht, hocc⟩)
        · exact ⟨u, List.mem_cons_self u rest, Occurs.refl u⟩
        · rcases List.mem_append.mp ht with h1 | h2
          · exact ⟨t, List.mem_cons_of_mem s h1, hocc⟩
          · exact ⟨s, List.mem_cons_self s rest, Occurs.child h2 hocc⟩
      · rintro ⟨t, ht, hocc⟩
        rcases List.mem_cons.mp ht with rfl | h1
        · cases hocc with
          | refl => exact Or.inl rfl
          | child hc ho =>
            exact Or.inr ⟨_, List.mem_append.mpr (Or.inr hc), ho⟩
        · exact Or.inr ⟨t, List.mem_append.mpr (Or.inl h1), hocc⟩

theorem mem_insertByLt {lt : FsNode → FsNode → Bool} {x a : FsNode} :
    ∀ {l : List FsNode}, x ∈ insertByLt lt a l ↔ x = a ∨ x ∈ l := by
  intro l
  induction l with
  | nil => simp [insertByLt]
  | cons b bs ih =>
    cases hlt : lt b a with
    | true =>
      simp only [insertByLt, hlt, if_pos, List.mem_cons, ih]
      tauto
    | false =>
      simp only [insertByLt, hlt, Bool.false_eq_true, if_neg, not_false_iff,
        List.mem_cons]

theorem mem_sortByLt {lt : FsNode → FsNode → Bool} {x : FsNode} :
    ∀ {l : List FsNode}, x ∈ sortByLt lt l ↔ x ∈ l := by
  intro l
  induction l with
  | nil => simp [sortByLt]
  | cons b bs ih => simp [sortByLt, mem_insertByLt, ih]

theorem mem_pySorted {x : FsNode} {l : List FsNode} :
    x ∈ pySorted l ↔ x ∈ l := mem_sortByLt

theorem charsLt_irrefl : ∀ a : List Char, charsLt a a = false := by
  intro a
  induction a with
  | nil => rfl
  | cons c cs ih => simp [charsLt, ih]

theorem charsLt_trans :
    ∀ {a b c : List Char}, charsLt a b = true → charsLt b c = true → charsLt a c = true := by
  intro a
  induction a with
  | nil =>
    intro b c hab hbc
    cases b with
    | nil => simp [charsLt] at hab
    | cons y ys =>
      cases c with
      | nil => simp [charsLt] at hbc
      | cons z zs => simp [charsLt]
  | cons x xs ih =>
    intro b c hab hbc
    cases b with
    | nil => simp [charsLt] at hab
    | cons y ys =>
      cases c with
      | nil => simp [charsLt] at hbc
      | cons z zs =>
        simp only [charsLt] at hab hbc ⊢
        by_cases hxy : x < y
        · by_cases hyz : y < z
          · simp [lt_trans hxy hyz]
          · by_cases hzy : z < y
            · simp [hyz, hzy] at hbc
            · have : y = z := le_antisymm (not_lt.mp hzy) (not_lt.mp hyz)
              subst this
              simp [hxy]
        · by_cases hyx : y < x
          · simp [hxy, hyx] at hab
          · have hxyeq : x = y := le_antisymm (not_lt.mp hyx) (not_lt.mp hxy)
            subst hxyeq
            simp only [lt_irrefl, if_false] at hab
            by_cases hyz : x < z
            · simp [hyz]
            · by_cases hzy : z < x
              · simp [hyz, hzy] at hbc
              · have : x = z := le_antisymm (not_lt.mp hzy) (not_lt.mp hyz)
                subst this
                simp only [lt_irrefl, if_false] at hbc ⊢
                exact ih hab hbc

theorem charsLt_trichotomy :
    ∀ (a b : List Char), charsLt a b = true ∨ charsLt b a = true ∨ a = b := by
  intro a
  induction a with
  | nil =>
    intro b
    cases b with
    | nil => simp
    | cons y ys => simp [charsLt]
  | cons x xs ih =>
    intro b
    cases b with
    | nil => simp [charsLt]
    | cons y ys =>
      by_cases hxy : x < y
      · exact Or.inl (by simp [charsLt, hxy])
      · by_cases hyx : y < x
        · exact Or.inr (Or.inl (by simp [charsLt, hyx]))
        · have hxyeq : x = y := le_antisymm (not_lt.mp hyx) (not_lt.mp hxy)
          subst hxyeq
          rcases ih ys with h | h | h
          · exact Or.inl (by simp [charsLt, h])
          · exact Or.inr (Or.inl (by simp [charsLt, h]))
          · subst h; simp

theorem charsLt_asymm {a b : List Char} (h : charsLt a b = true) :
    charsLt b a = false := by
  cases hc : charsLt b a with
  | false => rfl
  | true =>
    have := charsLt_trans h hc
    rw [charsLt_irrefl] at this
    exact absurd this (by simp)

theorem charsLt_negtrans {s t u : List Char}
    (h1 : charsLt t s = false) (h2 : charsLt u t = false) :
    charsLt u s = false := by
  cases hc : charsLt u s with
  | false => rfl
  | true =>
    rcases charsLt_trichotomy t u with h | h | h
    · rw [charsLt_trans h hc] at h1
      exact h1
    · rw [h] at h2
      exact h2
    · subst h
      rw [hc] at h1
      exact h1

theorem pairLt_asymm {p q : Bool} {s t : List Char}
    (h : pairLt p q s t = true) : pairLt q p t s = false := by
  cases p <;> cases q <;> simp_all [pairLt, boolLt] <;> exact charsLt_asymm h

theorem pairLt_negtrans {p q r : Bool} {s t u : List Char}
    (h1 : pairLt q p t s = false) (h2 : pairLt r q u t = false) :
    pairLt r p u s = false := by
  cases p <;> cases q <;> cases r <;> simp_all [pairLt, boolLt] <;>
    exact charsLt_negtrans h1 h2

theorem keyLt_asymm {a b : FsNode} (h : keyLt a b = true) :
    keyLt b a = false :=
  pairLt_asymm h

theorem keyLt_negtrans {a b c : FsNode}
    (h1 : keyLt b a = false) (h2 : keyLt c b = false) :
    keyLt c a = false :=
  pairLt_negtrans h1 h2

theorem pairwise_insertByLt {a : FsNode} :
    ∀ {l : List FsNode},
      List.Pairwise (fun x y => keyLt y x = false) l →
      List.Pairwise (fun x y => keyLt y x = false) (insertByLt keyLt a l) := by
  intro l
  induction l with
  | nil =>
    intro _
    simp [insertByLt]
  | cons b bs ih =>
    intro h
    rcases List.pairwise_cons.mp h with ⟨hb, hbs⟩
    cases hlt : keyLt b a with
    | true =>
      rw [insertByLt, if_pos hlt]
      refine List.pairwise_cons.mpr ⟨?_, ih hbs⟩
      intro x hx
      rcases mem_insertByLt.mp hx with rfl | hx2
      · exact keyLt_asymm hlt
      · exact hb x hx2
    | false =>
      rw [insertByLt, if_neg (by simp [hlt])]
      refine List.pairwise_cons.mpr ⟨?_, h⟩
      intro x hx
      rcases List.mem_cons.mp hx with rfl | hx2
      · exact hlt
      · exact keyLt_negtrans hlt (hb x hx2)

theorem pairwise_pySorted (l : List FsNode) :
    List.Pairwise (fun x y => keyLt y x = false) (pySorted l) := by
  unfold pySorted
  induction l with
  | nil => simp [sortByLt]
  | cons x xs ih =>
    rw [sortByLt]
    exact pairwise_insertByLt ih

/-- Unfolding process_directory at a depth at or past the limit. -/
theorem process_directory_depth_exceeded {node : FsNode} {md cd : Nat}
    (h : md ≤ cd) :
    process_directory node md cd = .mk [] [] (some "Max depth reached") := by
  unfold process_directory
  simp [h]

/-- Unfolding process_directory at a readable directory below the depth
limit: the two dictionaries are filled from the sorted entry list and no
error is recorded. -/
theorem process_directory_dir_eq {nm : String} {entries : List FsNode} {md cd : Nat}
    (h : ¬ md ≤ cd) :
    process_directory (.dir nm entries) md cd =
      .mk
        ((pySorted entries).filterMap (fun item =>
          if item.isDir then
            if should_skip_directory item.name then none
            else some (item.name, process_directory item md (cd + 1))
          else none))
        ((pySorted entries).filterMap (fun item =>
          match item with
          | .file fname data =>
            if startsWithDot fname then none
            else if pathSuffix fname == ".py" then some (fname, scan_python_file fname data)
            else none
          | _ => none))
        none := by
  conv_lhs => unfold process_directory
  simp [h]

/-- Dissect membership in the folders dictionary of one directory. -/
theorem mem_folders_elim {md cd : Nat} {items : List FsNode} {k : String} {sub : DirNode}
    (h : (k, sub) ∈ items.filterMap (fun item =>
      if item.isDir then
        if should_skip_directory item.name then none
        else some (item.name, process_directory item md (cd + 1))
      else none)) :
    ∃ it ∈ items, it.isDir = true ∧ should_skip_directory it.name = false ∧
      k = it.name ∧ sub = process_directory it md (cd + 1) := by
  rcases List.mem_filterMap.mp h with ⟨it, hit, heq⟩
  by_cases hd : it.isDir = true
  · by_cases hs : should_skip_directory it.name = true
    · simp [hd, hs] at heq
    · simp [hd, hs] at heq
      exact ⟨it, hit, hd, by simpa using hs, heq.1.symm, heq.2.symm⟩
  · simp [hd] at heq

/-- Introduce membership in the folders dictionary of one directory. -/
theorem mem_folders_intro {md cd : Nat} {items : List FsNode} {it : FsNode}
    (hit : it ∈ items) (hd : it.isDir = true)
    (hs : should_skip_directory it.name = false) :
    (it.name, process_directory it md (cd + 1)) ∈ items.filterMap (fun item =>
      if item.isDir then
        if should_skip_directory item.name then none
        else some (item.name, process_directory item md (cd + 1))
      else none) :=
  List.mem_filterMap.mpr ⟨it, hit, by simp [hd, hs]⟩

/-- Dissect membership in the files dictionary of one directory. -/
theorem mem_files_elim {items : List FsNode} {k : String} {a : FileAnalysis}
    (h : (k, a) ∈ items.filterMap (fun item =>
      match item with
      | .file fname data =>
        if startsWithDot fname then none
        else if pathSuffix fname == ".py" then some (fname, scan_python_file fname data)
        else none
      | _ => none)) :
    ∃ fname data, FsNode.file fname data ∈ items ∧ startsWithDot fname = false ∧
      pathSuffix fname = ".py" ∧ k = fname ∧ a = scan_python_file fname data := by
  rcases List.mem_filterMap.mp h with ⟨it, hit, heq⟩
  cases it with
  | file fname data =>
    by_cases hdot : startsWithDot fname = true
    · simp [hdot] at heq
    · by_cases hpy : (pathSuffix fname == ".py") = true
      · simp [hdot, hpy] at heq
        exact ⟨fname, data, hit, by simpa using hdot, by simpa using hpy,
          heq.1.symm, heq.2.symm⟩
      · simp [hdot, hpy] at heq
  | dir nm sub => simp at heq
  | dirDenied nm => simp at heq
  | dirError nm msg => simp at heq

/-- Introduce membership in the files dictionary of one directory. -/
theorem mem_files_intro {items : List FsNode} {fname : String} {data : FileData}
    (hit : FsNode.file fname data ∈ items) (hdot : startsWithDot fname = false)
    (hpy : pathSuffix fname = ".py") :
    (fname, scan_python_file fname data) ∈ items.filterMap (fun item =>
      match item with
      | .file fn d =>
        if startsWithDot fn then none
        else if pathSuffix fn == ".py" then some (fn, scan_python_file fn d)
        else none
      | _ => none) :=
  List.mem_filterMap.mpr ⟨.file fname data, hit, by simp [hdot, hpy]⟩

/-- The keys of the folders dictionary are the names of the non-skipped
directories, in sorted-traversal order. -/
theorem folders_keys (md cd : Nat) (items : List FsNode) :
    (items.filterMap (fun item =>
      if item.isDir then
        if should_skip_directory item.name then none
        else some (item.name, process_directory item md (cd + 1))
      else none)).map Prod.fst
    = (items.filter (fun it => it.isDir && !should_skip_directory it.name)).map
        FsNode.name := by
  induction items with
  | nil => simp
  | cons it rest ih =>
    by_cases hd : it.isDir = true
    · by_cases hs : should_skip_directory it.name = true
      · simp [hd, hs, ih]
      · simp [hd, hs, ih]
    · simp [hd, ih]

/-- The keys of the files dictionary are the names of the non-hidden
.py files, in sorted-traversal order. -/
theorem files_keys (items : List FsNode) :
    (items.filterMap (fun item =>
      match item with
      | .file fname data =>
        if startsWithDot fname then none
        else if pathSuffix fname == ".py" then some (fname, scan_python_file fname data)
        else none
      | _ => none)).map Prod.fst
    = (items.filter (fun it =>
        it.isFile && !startsWithDot it.name && (pathSuffix it.name == ".py"))).map
        FsNode.name := by
  induction items with
  | nil => simp
  | cons it rest ih =>
    cases it with
    | file fname data =>
      by_cases hdot : startsWithDot fname = true
      · rw [List.filterMap_cons, List.filter_cons]
        simp [FsNode.isFile, FsNode.name, hdot] at ih ⊢
        exact ih
      · by_cases hpy : (pathSuffix fname == ".py") = true
        · rw [List.filterMap_cons, List.filter_cons]
          simp [FsNode.isFile, FsNode.name, hdot, hpy] at ih ⊢
          exact ih
        · rw [List.filterMap_cons, List.filter_cons]
          simp [FsNode.isFile, FsNode.name, hdot, hpy] at ih ⊢
          exact ih
    | dir nm sub =>
      rw [List.filterMap_cons, List.filter_cons]
      simp [FsNode.isFile, FsNode.name] at ih ⊢
      exact ih
    | dirDenied nm =>
      rw [List.filterMap_cons, List.filter_cons]
      simp [FsNode.isFile, FsNode.name] at ih ⊢
      exact ih
    | dirError nm msg =>
      rw [List.filterMap_cons, List.filter_cons]
      simp [FsNode.isFile, FsNode.name] at ih ⊢
      exact ih

/-- The in-band error value of every node, by case: the depth guard
first, then the outcome of listing the directory. -/
theorem process_directory_error_eq (node : FsNode) (md cd : Nat) :
    (process_directory node md cd).error =
      if md ≤ cd then some "Max depth reached"
      else
        match node with
        | .dirDenied _ => some "Permission denied"
        | .dirError _ msg => some msg
        | _ => none := by
  by_cases h : md ≤ cd
  · rw [process_directory_depth_exceeded h]
    simp [h, DirNode.error]
  · unfold process_directory
    cases node <;> simp [h, DirNode.error]

/-- Skipped names never become folder keys, at any depth. -/
theorem process_directory_noSkipped :
    ∀ (fuel : Nat) (node : FsNode) (md cd : Nat), md - cd ≤ fuel →
      NoSkipped (process_directory node md cd) := by
  intro fuel
  induction fuel with
  | zero =>
    intro node md cd hf
    rw [process_directory_depth_exceeded (by omega)]
    exact NoSkipped.mk (by simp) (by simp)
  | succ f ih =>
    intro node md cd hf
    by_cases h : md ≤ cd
    · rw [process_directory_depth_exceeded h]
      exact NoSkipped.mk (by simp) (by simp)
    · cases node with
      | dir nm entries =>
        rw [process_directory_dir_eq h]
        refine NoSkipped.mk ?_ ?_
        · intro k sub hmem
          rcases mem_folders_elim hmem with ⟨it, _, _, hs, hk, _⟩
          rw [hk]
          exact hs
        · intro k sub hmem
          rcases mem_folders_elim hmem with ⟨it, _, _, _, _, hsub⟩
          rw [hsub]
          exact ih it md (cd + 1) (by omega)
      | file nm data =>
        unfold process_directory
        simp only [h, if_neg, dif_neg]
        exact NoSkipped.mk (by simp) (by simp)
      | dirDenied nm =>
        unfold process_directory
        simp only [h, if_neg, dif_neg]
        exact NoSkipped.mk (by simp) (by simp)
      | dirError nm msg =>
        unfold process_directory
        simp only [h, if_neg, dif_neg]
        exact NoSkipped.mk (by simp) (by simp)

/-- Only names with the .py suffix become file keys, at any depth. -/
theorem process_directory_filesOnlyPy :
    ∀ (fuel : Nat) (node : FsNode) (md cd : Nat), md - cd ≤ fuel →
      FilesOnlyPy (process_directory node md cd) := by
  intro fuel
  induction fuel with
  | zero =>
    intro node md cd hf
    rw [process_directory_depth_exceeded (by omega)]
    exact FilesOnlyPy.mk (by simp) (by simp)
  | succ f ih =>
    intro node md cd hf
    by_cases h : md ≤ cd
    · rw [process_directory_depth_exceeded h]
      exact FilesOnlyPy.mk (by simp) (by simp)
    · cases node with
      | dir nm entries =>
        rw [process_directory_dir_eq h]
        refine FilesOnlyPy.mk ?_ ?_
        · intro k a hmem
          rcases mem_files_elim hmem with ⟨fname, data, _, _, hpy, hk, _⟩
          rw [hk]
          exact hpy
        · intro k sub hmem
          rcases mem_folders_elim hmem with ⟨it, _, _, _, _, hsub⟩
          rw [hsub]
          exact ih it md (cd + 1) (by omega)
      | file nm data =>
        unfold process_directory
        simp only [h, if_neg, dif_neg]
        exact FilesOnlyPy.mk (by simp) (by simp)
      | dirDenied nm =>
        unfold process_directory
        simp only [h, if_neg, dif_neg]
        exact FilesOnlyPy.mk (by simp) (by simp)
      | dirError nm msg =>
        unfold process_directory
        simp only [h, if_neg, dif_neg]
        exact FilesOnlyPy.mk (by simp) (by simp)

/-- The height of the produced tree is bounded by the remaining depth
budget plus one. -/
theorem process_directory_heightLE :
    ∀ (fuel : Nat) (node : FsNode) (md cd : Nat), md - cd ≤ fuel →
      HeightLE (process_directory node md cd) (md - cd + 1) := by
  intro fuel
  induction fuel with
  | zero =>
    intro node md cd hf
    rw [process_directory_depth_exceeded (by omega)]
    exact HeightLE.mk (by simp)
  | succ f ih =>
    intro node md cd hf
    by_cases h : md ≤ cd
    · rw [process_directory_depth_exceeded h]
      exact HeightLE.mk (by simp)
    · cases node with
      | dir nm entries =>
        rw [process_directory_dir_eq h]
        have hstep : md - (cd + 1) + 1 = md - cd := by omega
        refine HeightLE.mk ?_
        intro k sub hmem
        rcases mem_folders_elim hmem with ⟨it, _, _, _, _, hsub⟩
        rw [hsub]
        have := ih it md (cd + 1) (by omega)
        rw [hstep] at this
        exact this
      | file nm data =>
        unfold process_directory
        simp only [h, if_neg, dif_neg]
        exact HeightLE.mk (by simp)
      | dirDenied nm =>
        unfold process_directory
        simp only [h, if_neg, dif_neg]
        exact HeightLE.mk (by simp)
      | dirError nm msg =>
        unfold process_directory
        simp only [h, if_neg, dif_neg]
        exact HeightLE.mk (by simp)

/-- The single body loop of scan_python_file collects exactly the
top-level function definitions, in order. -/
theorem scan_body_functions (body : List Stmt) :
    (scan_body body).1 = body.filterMap (fun s =>
      match s with
      | .functionDef n a b d r l asy => some (analyze_function n a b d r l asy)
      | _ => none) := by
  induction body with
  | nil => rfl
  | cons s rest ih =>
    cases s <;> simp [scan_body, ih]

/-- The single body loop of scan_python_file collects exactly the
top-level class definitions, in order. -/
theorem scan_body_classes (body : List Stmt) :
    (scan_body body).2 = body.filterMap (fun s =>
      match s with
      | .classDef n bs b l => some (analyze_class n bs b l)
      | _ => none) := by
  induction body with
  | nil => rfl
  | cons s rest ih =>
    cases s <;> simp [scan_body, ih]

/-- Membership in the constants contributed by one statement. -/
theorem mem_constants_of_stmt {k : ConstantInfo} {s : Stmt} :
    k ∈ constants_of_stmt s ↔
      ∃ targets value ln, s = Stmt.assign targets value ln ∧
        ∃ id, Expr.name id ∈ targets ∧ pyIsUpper id = true ∧
          k = { name := id, value := unparse value, line := ln } := by
  cases s with
  | assign targets value ln =>
    rw [constants_of_stmt]
    constructor
    · intro h
      rcases List.mem_filterMap.mp h with ⟨t, ht, heq⟩
      cases t with
      | name id =>
        by_cases hup : pyIsUpper id = true
        · simp [hup] at heq
          exact ⟨targets, value, ln, rfl, id, ht, hup, heq.symm⟩
        · simp [hup] at heq
      | constStr c => simp at heq
      | constInt n => simp at heq
      | otherExpr r => simp at heq
    · rintro ⟨t2, v2, l2, heq, id, hid, hup, hk⟩
      cases heq
      exact List.mem_filterMap.mpr ⟨.name id, hid, by simp [hup, hk]⟩
  | functionDef n a b d r l asy =>
    simp [constants_of_stmt]
  | classDef n bs b l => simp [constants_of_stmt]
  | importStmt ns => simp [constants_of_stmt]
  | importFrom m ns => simp [constants_of_stmt]
  | exprStmt v => simp [constants_of_stmt]
  | other b => simp [constants_of_stmt]

/-! ## Claim theorems -/

/-- C1.  scan_file (scan_python_file) never raises: on any read or
parse failure it returns a FileAnalysis whose error field holds the
exception text while every collection is empty and every total is zero.
The embedding is a total function, so nothing propagates to the caller;
the hypothesis hm records that CPython renders read and parse errors as
non-empty strings. -/
theorem scan_python_file_failure_inband (path : String) (fd : FileData) (m : String)
    (hf : fd.failure = some m) (hm : m ≠ "") :
    scan_python_file path fd =
      { file_path := path, functions := [], classes := [], constants := []
        imports := [], total_functions := 0, total_classes := 0
        total_constants := 0, lines := 0, error := some m } ∧
    ∃ e, (scan_python_file path fd).error = some e ∧ e ≠ "" := by
  cases fd with
  | readError msg =>
    rw [show m = msg from by simpa [FileData.failure] using hf.symm]
    exact ⟨rfl, msg, rfl, by simpa [show m = msg from by simpa [FileData.failure] using hf.symm] using hm⟩
  | parseError msg =>
    rw [show m = msg from by simpa [FileData.failure] using hf.symm]
    exact ⟨rfl, msg, rfl, by simpa [show m = msg from by simpa [FileData.failure] using hf.symm] using hm⟩
  | parsed lines tree => simp [FileData.failure] at hf

/-- Witness for C1 at a concrete syntax failure. -/
theorem scan_python_file_failure_inband_witness :
    scan_python_file "bad.py" (.parseError "invalid syntax (bad.py, line 1)") =
      { file_path := "bad.py", functions := [], classes := [], constants := []
        imports := [], total_functions := 0, total_classes := 0
        total_constants := 0, lines := 0
        error := some "invalid syntax (bad.py, line 1)" } ∧
    ∃ e, (scan_python_file "bad.py"
        (.parseError "invalid syntax (bad.py, line 1)")).error = some e ∧ e ≠ "" :=
  scan_python_file_failure_inband "bad.py" _ _ rfl (by decide)

/-- C9.  Every FileAnalysis carries all fields, each total equals the
length of its sequence, the error field is present exactly on failure,
and an error implies every sequence empty and every count zero. -/
theorem file_analysis_shape_invariants (path : String) (fd : FileData) :
    (scan_python_file path fd).total_functions
        = (scan_python_file path fd).functions.length ∧
    (scan_python_file path fd).total_classes
        = (scan_python_file path fd).classes.length ∧
    (scan_python_file path fd).total_constants
        = (scan_python_file path fd).constants.length ∧
    ((scan_python_file path fd).error.isSome ↔ fd.failure.isSome) ∧
    (∀ e, (scan_python_file path fd).error = some e →
      (scan_python_file path fd).functions = [] ∧
      (scan_python_file path fd).classes = [] ∧
      (scan_python_file path fd).constants = [] ∧
      (scan_python_file path fd).imports = [] ∧
      (scan_python_file path fd).total_functions = 0 ∧
      (scan_python_file path fd).total_classes = 0 ∧
      (scan_python_file path fd).total_constants = 0 ∧
      (scan_python_file path fd).lines = 0) := by
  cases fd <;> simp [scan_python_file, FileData.failure]

/-- Witness for C9 at a failing and a succeeding input. -/
theorem file_analysis_shape_invariants_witness :
    (scan_python_file "x.py" (.readError "boom")).functions = [] ∧
    (scan_python_file "x.py" (.readError "boom")).total_functions = 0 ∧
    (scan_python_file "ok.py" (.parsed 3 ⟨[]⟩)).error = none := by
  refine ⟨?_, ?_, ?_⟩
  · exact ((file_analysis_shape_invariants "x.py" (.readError "boom")).2.2.2.2
      "boom" rfl).1
  · exact ((file_analysis_shape_invariants "x.py" (.readError "boom")).2.2.2.2
      "boom" rfl).2.2.2.2.1
  · have h := (file_analysis_shape_invariants "ok.py" (.parsed 3 ⟨[]⟩)).2.2.2.1
    simp [FileData.failure] at h
    exact Option.not_isSome_iff_eq_none.mp (by simp [h])

/-- C10.  The parameter sequence built by analyze_function is the plain
positional parameters in source order, then at most one varargs entry
(star-prefixed, type marker varargs), then at most one kwargs entry
(double-star-prefixed, type marker kwargs); positional-only and
keyword-only parameters never contribute an entry. -/
theorem analyze_function_parameter_sequence
    (nm : String) (args : Arguments) (body : List Stmt)
    (decorator_list : List Expr) (returns : Option Expr)
    (lineno : Nat) (is_async : Bool) :
    (analyze_function nm args body decorator_list returns lineno is_async).args =
      args.args.map (fun a => { name := a.arg, type := a.annotation.map unparse })
      ++ (match args.vararg with
          | some v => [{ name := "*" ++ v.arg, type := some "varargs" }]
          | none => [])
      ++ (match args.kwarg with
          | some k => [{ name := "**" ++ k.arg, type := some "kwargs" }]
          | none => []) ∧
    (∀ pos kw : List Arg,
      analyze_function nm
        { args with posonlyargs := pos, kwonlyargs := kw }
        body decorator_list returns lineno is_async =
      analyze_function nm args body decorator_list returns lineno is_async) :=
  ⟨rfl, fun _ _ => rfl⟩

/-- The for-else search over the parents, expressed with find?. -/
theorem searchParents_eq (cwdPath : String) (ps : List DirectoryListing) :
    searchParents cwdPath ps =
      ((ps.find? hasProjectIndicator).map DirectoryListing.path).getD cwdPath := by
  induction ps with
  | nil => rfl
  | cons p rest ih =>
    by_cases hp : hasProjectIndicator p = true
    · simp [searchParents, hp, List.find?_cons_of_pos]
    · simp only [searchParents, hp, Bool.false_eq_true, if_false,
        List.find?_cons_of_neg _ (by simpa using hp)]
      exact ih

/-- C8.  With no explicit path, root location takes the first directory
of the cwd-to-root chain holding a project indicator and falls back to
the cwd; as a pure function of the filesystem snapshot it is trivially
deterministic, so two calls on the same state agree. -/
theorem project_root_detection (cwd : DirectoryListing) (parents : List DirectoryListing) :
    init_project_path cwd parents =
      ((((cwd :: parents).find? hasProjectIndicator).map DirectoryListing.path).getD
        cwd.path) ∧
    init_project_path cwd parents = init_project_path cwd parents := by
  refine ⟨?_, rfl⟩
  by_cases hc : hasProjectIndicator cwd = true
  · simp [init_project_path, hc, List.find?_cons_of_pos]
  · simp only [init_project_path, hc, Bool.false_eq_true, if_false,
      List.find?_cons_of_neg _ (by simpa using hc)]
    exact searchParents_eq cwd.path parents

/-- C3.  For a parseable file, the functions and classes sequences hold
exactly the top-level definitions of the module body (definitions nested
inside another function or class never appear), while the constants
sequence holds an entry for every upper-case-named assignment target
anywhere in the tree, at any nesting depth. -/
theorem scan_toplevel_defs_and_deep_constants
    (path : String) (lines : Nat) (tree : Module) :
    (∀ f, f ∈ (scan_python_file path (.parsed lines tree)).functions ↔
      ∃ nm args body dl ret ln asy,
        Stmt.functionDef nm args body dl ret ln asy ∈ tree.body ∧
        f = analyze_function nm args body dl ret ln asy) ∧
    (∀ c, c ∈ (scan_python_file path (.parsed lines tree)).classes ↔
      ∃ nm bs body ln,
        Stmt.classDef nm bs body ln ∈ tree.body ∧
        c = analyze_class nm bs body ln) ∧
    (∀ k, k ∈ (scan_python_file path (.parsed lines tree)).constants ↔
      ∃ targets value ln,
        ModuleContains tree (Stmt.assign targets value ln) ∧
        ∃ id, Expr.name id ∈ targets ∧ pyIsUpper id = true ∧
          k = { name := id, value := unparse value, line := ln }) := by
  refine ⟨?_, ?_, ?_⟩
  · intro f
    show f ∈ (scan_body tree.body).1 ↔ _
    rw [scan_body_functions, List.mem_filterMap]
    constructor
    · rintro ⟨s, hs, heq⟩
      cases s with
      | functionDef n a b d r l asy =>
        exact ⟨n, a, b, d, r, l, asy, hs, by simpa using heq.symm⟩
      | classDef n bs b l => simp at heq
      | assign t v l => simp at heq
      | importStmt ns => simp at heq
      | importFrom m ns => simp at heq
      | exprStmt v => simp at heq
      | other b => simp at heq
    · rintro ⟨nm, args, body, dl, ret, ln, asy, hmem, rfl⟩
      exact ⟨_, hmem, rfl⟩
  · intro c
    show c ∈ (scan_body tree.body).2 ↔ _
    rw [scan_body_classes, List.mem_filterMap]
    constructor
    · rintro ⟨s, hs, heq⟩
      cases s with
      | classDef n bs b l =>
        exact ⟨n, bs, b, l, hs, by simpa using heq.symm⟩
      | functionDef n a b d r l asy => simp at heq
      | assign t v l => simp at heq
      | importStmt ns => simp at heq
      | importFrom m ns => simp at heq
      | exprStmt v => simp at heq
      | other b => simp at heq
    · rintro ⟨nm, bs, body, ln, hmem, rfl⟩
      exact ⟨_, hmem, rfl⟩
  · intro k
    show k ∈ analyze_constants tree ↔ _
    rw [analyze_constants, List.mem_flatMap]
    constructor
    · rintro ⟨s, hs, hk⟩
      rcases mem_constants_of_stmt.mp hk with ⟨targets, value, ln, rfl, id, hid, hup, hkv⟩
      rcases mem_walkQueue.mp hs with ⟨t, ht, hocc⟩
      exact ⟨targets, value, ln, ⟨t, ht, hocc⟩, id, hid, hup, hkv⟩
    · rintro ⟨targets, value, ln, ⟨t, ht, hocc⟩, id, hid, hup, hkv⟩
      refine ⟨Stmt.assign targets value ln, mem_walkQueue.mpr ⟨t, ht, hocc⟩, ?_⟩
      exact mem_constants_of_stmt.mpr ⟨targets, value, ln, rfl, id, hid, hup, hkv⟩

/-- C2.  The whole scan is a total function (nothing can escape to the
caller), every failure is an in-band error value on the smallest
enclosing node - "Max depth reached" at the depth guard, "Permission
denied" or the OS message where listing the directory failed, and the
per-file error inside its own FileAnalysis - and every non-skipped
sibling of a readable directory is present in the result regardless of
failures inside it. -/
theorem build_structure_inband_errors :
    (∀ (node : FsNode) (md cd : Nat),
      (process_directory node md cd).error =
        if md ≤ cd then some "Max depth reached"
        else
          match node with
          | .dirDenied _ => some "Permission denied"
          | .dirError _ msg => some msg
          | _ => none) ∧
    (∀ (nm : String) (entries : List FsNode) (md cd : Nat), ¬ md ≤ cd →
      (∀ it ∈ entries, it.isDir = true → should_skip_directory it.name = false →
        (it.name, process_directory it md (cd + 1)) ∈
          (process_directory (.dir nm entries) md cd).folders) ∧
      (∀ (fname : String) (data : FileData), FsNode.file fname data ∈ entries →
        startsWithDot fname = false → pathSuffix fname = ".py" →
        (fname, scan_python_file fname data) ∈
          (process_directory (.dir nm entries) md cd).files)) := by
  refine ⟨process_directory_error_eq, ?_⟩
  intro nm entries md cd h
  rw [process_directory_dir_eq h]
  constructor
  · intro it hit hd hs
    exact mem_folders_intro (mem_pySorted.mpr hit) hd hs
  · intro fname data hit hdot hpy
    exact mem_files_intro (mem_pySorted.mpr hit) hdot hpy

/-- Witness for C2 on a small tree with a readable subdirectory, a
scannable file and a permission-denied subdirectory side by side. -/
theorem build_structure_inband_errors_witness :
    ("pkg", process_directory (FsNode.dir "pkg" []) 10 1) ∈
      (process_directory
        (FsNode.dir "root"
          [FsNode.dir "pkg" [], FsNode.file "mod.py" (.parsed 0 ⟨[]⟩),
            FsNode.dirDenied "secret"]) 10 0).folders ∧
    ("mod.py", scan_python_file "mod.py" (.parsed 0 ⟨[]⟩)) ∈
      (process_directory
        (FsNode.dir "root"
          [FsNode.dir "pkg" [], FsNode.file "mod.py" (.parsed 0 ⟨[]⟩),
            FsNode.dirDenied "secret"]) 10 0).files ∧
    (process_directory (FsNode.dirDenied "secret") 10 1).error =
      some "Permission denied" := by
  refine ⟨?_, ?_, ?_⟩
  · exact (build_structure_inband_errors.2 "root" _ 10 0 (by omega)).1
      (FsNode.dir "pkg" []) (by simp) rfl (by decide)
  · exact (build_structure_inband_errors.2 "root" _ 10 0 (by omega)).2
      "mod.py" (.parsed 0 ⟨[]⟩) (by simp) (by decide) (by decide)
  · rw [build_structure_inband_errors.1 (FsNode.dirDenied "secret") 10 1]
    norm_num

/-- C4.  Traversal never descends past max_depth levels: at the depth
boundary the node is exactly the structural marker with no folders
below it, and the height of any produced tree is bounded by the
remaining depth budget. -/
theorem process_directory_depth_limit (node : FsNode) (md cd : Nat) :
    (md ≤ cd → process_directory node md cd = .mk [] [] (some "Max depth reached")) ∧
    HeightLE (process_directory node md cd) (md - cd + 1) :=
  ⟨fun h => process_directory_depth_exceeded h,
    process_directory_heightLE (md - cd) node md cd le_rfl⟩

/-- Witness for C4 on a chain of 13 nested directories against the
fixed limit of 10. -/
theorem process_directory_depth_limit_witness :
    process_directory (deepChain 12) 10 10 = .mk [] [] (some "Max depth reached") ∧
    HeightLE (process_directory (deepChain 12) 10 0) (10 - 0 + 1) :=
  ⟨(process_directory_depth_limit (deepChain 12) 10 10).1 (by omega),
    (process_directory_depth_limit (deepChain 12) 10 0).2⟩

/-- C5.  The combined skip test of the walk: a directory is skipped
exactly when its base name is in the deny-set or starts with a dot, a
non-directory exactly when its base name starts with a dot; and no
skipped name is ever a folders key anywhere in any result tree. -/
theorem should_skip_semantics_and_no_skipped_keys :
    (∀ e : FsNode, shouldSkipEntry e = true ↔
      (e.isDir = true ∧ (e.name ∈ skip_dirs ∨ startsWithDot e.name = true)) ∨
      (e.isDir = false ∧ startsWithDot e.name = true)) ∧
    (∀ (node : FsNode) (md cd : Nat), NoSkipped (process_directory node md cd)) := by
  constructor
  · intro e
    by_cases hd : e.isDir = true
    · rw [shouldSkipEntry, if_pos hd, should_skip_directory]
      simp [hd, List.contains, List.elem_iff]
    · have hdf : e.isDir = false := by
        revert hd
        cases e.isDir <;> simp
      rw [shouldSkipEntry, if_neg hd]
      simp [hdf]
  · exact fun node md cd => process_directory_noSkipped (md - cd) node md cd le_rfl

/-- C6.  Only names with the .py extension are scanned and listed in
any files mapping, and a readable directory holding only files of other
extensions produces the empty node with no error. -/
theorem only_py_files_listed :
    (∀ (node : FsNode) (md cd : Nat), FilesOnlyPy (process_directory node md cd)) ∧
    (∀ (nm : String) (entries : List FsNode) (md cd : Nat), ¬ md ≤ cd →
      (∀ it ∈ entries, ∃ fname data, it = FsNode.file fname data ∧
        pathSuffix fname ≠ ".py") →
      process_directory (.dir nm entries) md cd = .mk [] [] none) := by
  constructor
  · exact fun node md cd => process_directory_filesOnlyPy (md - cd) node md cd le_rfl
  · intro nm entries md cd h hfiles
    rw [process_directory_dir_eq h]
    have h1 : (pySorted entries).filterMap (fun item =>
        if item.isDir then
          if should_skip_directory item.name then none
          else some (item.name, process_directory item md (cd + 1))
        else none) = [] := by
      rw [List.filterMap_eq_nil_iff]
      intro a ha
      rcases hfiles a (mem_pySorted.mp ha) with ⟨fname, data, rfl, hnp⟩
      simp [FsNode.isDir]
    have h2 : (pySorted entries).filterMap (fun item =>
        match item with
        | .file fname data =>
          if startsWithDot fname then none
          else if pathSuffix fname == ".py" then some (fname, scan_python_file fname data)
          else none
        | _ => none) = [] := by
      rw [List.filterMap_eq_nil_iff]
      intro a ha
      rcases hfiles a (mem_pySorted.mp ha) with ⟨fname, data, rfl, hnp⟩
      by_cases hdot : startsWithDot fname = true
      · simp [hdot]
      · simp [hdot, hnp]
    rw [h1, h2]

/-- Witness for C6 on a directory holding one non-Python file. -/
theorem only_py_files_listed_witness :
    process_directory
      (FsNode.dir "docs" [FsNode.file "README.md" (.readError "boom")]) 10 0 =
      .mk [] [] none :=
  only_py_files_listed.2 "docs" _ 10 0 (by omega) (by
    intro it hit
    simp only [List.mem_singleton] at hit
    subst hit
    exact ⟨"README.md", .readError "boom", rfl, by decide⟩)

/-- Directories are exactly the non-files. -/
theorem isDir_eq_not_isFile (e : FsNode) : e.isDir = !e.isFile := by
  cases e <;> rfl

/-- Below the key order with equal kinds, the lower-cased names are in
order. -/
theorem keyLt_eqKind_charsLt {a b : FsNode} (hk : keyLt b a = false)
    (hsame : b.isFile = a.isFile) :
    charsLt (pyLower b.name).data (pyLower a.name).data = false := by
  unfold keyLt pairLt sortKey at hk
  cases hf : a.isFile with
  | false =>
    rw [hf] at hsame
    rw [hsame, hf] at hk
    simpa [boolLt] using hk
  | true =>
    rw [hf] at hsame
    rw [hsame, hf] at hk
    simpa [boolLt] using hk

/-- C7.  The traversal order of one directory is sorted first by kind
(directories, whose is_file key is False, before files) and then
case-insensitively by name; the folders and files dictionaries are
produced as the order-preserving projections of that sorted list, so
each dictionary is itself in case-insensitive name order. -/
theorem directory_listing_sort_order (nm : String) (entries : List FsNode)
    (md cd : Nat) (h : ¬ md ≤ cd) :
    List.Pairwise (fun a b => keyLt b a = false) (pySorted entries) ∧
    (process_directory (.dir nm entries) md cd).folders.map Prod.fst =
      ((pySorted entries).filter (fun it =>
        it.isDir && !should_skip_directory it.name)).map FsNode.name ∧
    (process_directory (.dir nm entries) md cd).files.map Prod.fst =
      ((pySorted entries).filter (fun it =>
        it.isFile && !startsWithDot it.name && (pathSuffix it.name == ".py"))).map
        FsNode.name ∧
    List.Pairwise (fun s t => charsLt (pyLower t).data (pyLower s).data = false)
      ((process_directory (.dir nm entries) md cd).folders.map Prod.fst) ∧
    List.Pairwise (fun s t => charsLt (pyLower t).data (pyLower s).data = false)
      ((process_directory (.dir nm entries) md cd).files.map Prod.fst) := by
  have hps := pairwise_pySorted entries
  have hfol : (process_directory (.dir nm entries) md cd).folders.map Prod.fst =
      ((pySorted entries).filter (fun it =>
        it.isDir && !should_skip_directory it.name)).map FsNode.name := by
    rw [process_directory_dir_eq h]
    simp only [DirNode.folders]
    exact folders_keys md cd (pySorted entries)
  have hfil : (process_directory (.dir nm entries) md cd).files.map Prod.fst =
      ((pySorted entries).filter (fun it =>
        it.isFile && !startsWithDot it.name && (pathSuffix it.name == ".py"))).map
        FsNode.name := by
    rw [process_directory_dir_eq h]
    simp only [DirNode.files]
    exact files_keys (pySorted entries)
  refine ⟨hps, hfol, hfil, ?_, ?_⟩
  · rw [hfol, List.pairwise_map]
    refine List.Pairwise.imp_of_mem ?_ (hps.filter _)
    intro a b ha hb hk
    have hpa := (List.mem_filter.mp ha).2
    have hpb := (List.mem_filter.mp hb).2
    refine keyLt_eqKind_charsLt hk ?_
    have h1 : a.isDir = true := by
      simp only [Bool.and_eq_true] at hpa
      exact hpa.1
    have h2 : b.isDir = true := by
      simp only [Bool.and_eq_true] at hpb
      exact hpb.1
    rw [isDir_eq_not_isFile] at h1 h2
    rw [show b.isFile = false from by simpa using h2,
      show a.isFile = false from by simpa using h1]
  · rw [hfil, List.pairwise_map]
    refine List.Pairwise.imp_of_mem ?_ (hps.filter _)
    intro a b ha hb hk
    have hpa := (List.mem_filter.mp ha).2
    have hpb := (List.mem_filter.mp hb).2
    refine keyLt_eqKind_charsLt hk ?_
    have h1 : a.isFile = true := by
      simp only [Bool.and_eq_true] at hpa
      exact hpa.1.1
    have h2 : b.isFile = true := by
      simp only [Bool.and_eq_true] at hpb
      exact hpb.1.1
    rw [h1, h2]

/-- Witness for C7 on a directory with mixed entries. -/
theorem directory_listing_sort_order_witness :
    List.Pairwise (fun a b => keyLt b a = false)
      (pySorted [FsNode.file "B.py" (.parsed 0 ⟨[]⟩), FsNode.dir "sub" [],
        FsNode.file "a.py" (.parsed 0 ⟨[]⟩)]) ∧
    (process_directory
      (FsNode.dir "root" [FsNode.file "B.py" (.parsed 0 ⟨[]⟩), FsNode.dir "sub" [],
        FsNode.file "a.py" (.parsed 0 ⟨[]⟩)]) 10 0).folders.map Prod.fst =
      ((pySorted [FsNode.file "B.py" (.parsed 0 ⟨[]⟩), FsNode.dir "sub" [],
        FsNode.file "a.py" (.parsed 0 ⟨[]⟩)]).filter (fun it =>
        it.isDir && !should_skip_directory it.name)).map FsNode.name ∧
    (process_directory
      (FsNode.dir "root" [FsNode.file "B.py" (.parsed 0 ⟨[]⟩), FsNode.dir "sub" [],
        FsNode.file "a.py" (.parsed 0 ⟨[]⟩)]) 10 0).files.map Prod.fst =
      ((pySorted [FsNode.file "B.py" (.parsed 0 ⟨[]⟩), FsNode.dir "sub" [],
        FsNode.file "a.py" (.parsed 0 ⟨[]⟩)]).filter (fun it =>
        it.isFile && !startsWithDot it.name && (pathSuffix it.name == ".py"))).map
        FsNode.name ∧
    List.Pairwise (fun s t => charsLt (pyLower t).data (pyLower s).data = false)
      ((process_directory
        (FsNode.dir "root" [FsNode.file "B.py" (.parsed 0 ⟨[]⟩), FsNode.dir "sub" [],
          FsNode.file "a.py" (.parsed 0 ⟨[]⟩)]) 10 0).folders.map Prod.fst) ∧
    List.Pairwise (fun s t => charsLt (pyLower t).data (pyLower s).data = false)
      ((process_directory
        (FsNode.dir "root" [FsNode.file "B.py" (.parsed 0 ⟨[]⟩), FsNode.dir "sub" [],
          FsNode.file "a.py" (.parsed 0 ⟨[]⟩)]) 10 0).files.map Prod.fst) :=
  directory_listing_sort_order "root" _ 10 0 (by omega)

end Scanner
